import Mathlib

/-!
# Verification of the `fifteen` sliding-tile puzzle

A shallow embedding of the core of `src/board.rs` and `src/main.rs`:
the tile permutation and its moves (`move_tiles`), the solvability
predicate (`is_solvable`), the rejection-sampling shuffle generator
(`generate_tiles`), the image-size computation of `BoardBuilder::build`,
and the run-length coalescing of `Board::draw_tile`.

Machine integers (`usize`) are modelled as `Nat`; the signed coordinates
(`isize`) used by `move_tiles` are modelled as `Int`.  Randomness is
modelled by passing the stream of shuffle outcomes explicitly.
-/

set_option maxRecDepth 8000

namespace Fifteen

/-- The four move directions (`enum Direction` in `board.rs`). -/
inductive Direction where
  | up
  | down
  | left
  | right
deriving DecidableEq, Repr

/-- `blank_tile_num` in `board.rs`: the reserved blank marker `n * n - 1`. -/
def blank_tile_num (n : Nat) : Nat := n * n - 1

/-- The `(dx, dy)` offset chosen by the `match direction` at the top of
`Board::move_tiles`. -/
def offset : Direction → Int × Int
  | .up => (0, 1)
  | .down => (0, -1)
  | .left => (1, 0)
  | .right => (-1, 0)

/-- The opposite screen direction (used to state that a move can be undone). -/
def opposite : Direction → Direction
  | .up => .down
  | .down => .up
  | .left => .right
  | .right => .left

/-- The `position(|t| *t == blank_tile_num(board_size)).unwrap()` step of
`Board::move_tiles`: index of the first occurrence of the blank marker. -/
def blank_index (n : Nat) (tiles : List Nat) : Nat :=
  tiles.indexOf (blank_tile_num n)

/-- The `(dest_x, dest_y)` computed by `Board::move_tiles`: the blank's
`(column, row)` coordinates shifted by the direction's offset. -/
def dest_coords (n : Nat) (tiles : List Nat) (d : Direction) : Int × Int :=
  let blank_tile := blank_index n tiles
  (((blank_tile % n : Nat) : Int) + (offset d).1,
   ((blank_tile / n : Nat) : Int) + (offset d).2)

/-- The `movable_x && movable_y` bounds check of `Board::move_tiles`. -/
def movable (n : Nat) (p : Int × Int) : Bool :=
  (decide (0 ≤ p.1) && decide (p.1 < (n : Int))) &&
  (decide (0 ≤ p.2) && decide (p.2 < (n : Int)))

/-- `Vec::swap` on the tile vector: exchange the entries at `i` and `j`.
(The indices produced by `move_tiles` are always in bounds.) -/
def list_swap (l : List Nat) (i j : Nat) : List Nat :=
  (l.set i (l.getD j 0)).set j (l.getD i 0)

/-- `Board::move_tiles`: returns the swapped pair of positions (blank's old
position, destination) and the updated tile list, or `none` and the
unchanged list when the destination is out of bounds. -/
def move_tiles (n : Nat) (tiles : List Nat) (d : Direction) :
    Option (Nat × Nat) × List Nat :=
  let blank_tile := blank_index n tiles
  let dest := dest_coords n tiles d
  if movable n dest then
    let dest_tile := dest.1.toNat + dest.2.toNat * n
    (some (blank_tile, dest_tile), list_swap tiles blank_tile dest_tile)
  else
    (none, tiles)

/-- `is_solvable` in `board.rs`, embedded with the same structure: the
inversion count is an `enumerate`/`filter`/`fold` over the tile list, each
step adding the number of later non-blank entries smaller than the current
one; the parity rule then branches on `n % 2`. -/
def is_solvable (n : Nat) (tiles : List Nat) : Bool :=
  let blank := blank_tile_num n
  let inversions :=
    ((tiles.enum.filter fun p => p.2 != blank).foldl
      (fun sum p =>
        sum + ((tiles.drop (p.1 + 1)).filter
          fun b => b != blank && decide (b < p.2)).length)
      0)
  if n % 2 == 0 then
    let blank_tile := tiles.indexOf blank
    let blank_row := n - blank_tile / n
    (blank_row % 2 == 0) != (inversions % 2 == 0)
  else
    inversions % 2 == 0

/-- `generate_tiles` in `board.rs`, with the randomness made explicit: the
Rust code repeatedly shuffles until `is_solvable` holds, so given the stream
of shuffle outcomes it returns the first solvable one (and diverges, i.e.
yields `none`, if the stream is exhausted). -/
def generate_tiles (n : Nat) (shuffles : List (List Nat)) : Option (List Nat) :=
  shuffles.find? fun t => is_solvable n t

/-- Spec-side inversion count, following the specification's words: the
number of ordered position pairs `(i, j)` with `i < j` where neither
`tiles[i]` nor `tiles[j]` is the blank marker and `tiles[j] < tiles[i]`. -/
def spec_inversion_count (blank : Nat) (tiles : List Nat) : Nat :=
  ((Finset.range tiles.length ×ˢ Finset.range tiles.length).filter
    fun p => p.1 < p.2 ∧ tiles.getD p.1 0 ≠ blank ∧ tiles.getD p.2 0 ≠ blank ∧
      tiles.getD p.2 0 < tiles.getD p.1 0).card

/-- Spec-side solvability predicate, following the specification's words:
odd `boardSize` is solvable iff the inversion count is even; even
`boardSize` is solvable iff `(blankRowFromBottom is even) XOR (inversion
count is even)` with `blankRowFromBottom = boardSize - blankPosition / boardSize`. -/
def spec_is_solvable (n : Nat) (tiles : List Nat) : Bool :=
  let inversionCount := spec_inversion_count (blank_tile_num n) tiles
  if n % 2 == 1 then
    inversionCount % 2 == 0
  else
    let blankPosition := tiles.indexOf (blank_tile_num n)
    let blankRowFromBottom := n - blankPosition / n
    (blankRowFromBottom % 2 == 0) != (inversionCount % 2 == 0)

/-- Structural restatement of the code's inversion fold, used as a stepping
stone between the `enumerate`/`fold` of `is_solvable` and the pair count of
the specification: for each entry, add the number of later non-blank entries
smaller than it. -/
def inv_aux (blank : Nat) : List Nat → Nat
  | [] => 0
  | a :: rest =>
    (if a != blank
      then ((rest.filter fun b => b != blank && decide (b < a)).length)
      else 0)
    + inv_aux blank rest

/-- `max_img_size` in `BoardBuilder::build`:
`((term_height - 1) * 2).min(term_width)`. -/
def max_image_size (terminal_size : Nat × Nat) : Nat :=
  min ((terminal_size.2 - 1) * 2) terminal_size.1

/-- The doubling `loop` of `BoardBuilder::build`, with explicit fuel: while
`img_size * 2` still fits in `max`, double it.  (The fuel `max` used by
`computed_img_size` is never exhausted for a positive start value, see
`img_size_loop_guard`.) -/
def img_size_loop (max : Nat) : Nat → Nat → Nat
  | 0, img_size => img_size
  | fuel + 1, img_size =>
    if img_size * 2 ≤ max then img_size_loop max fuel (img_size * 2)
    else img_size

/-- The `img_size` computed by `BoardBuilder::build` from the board size and
the terminal size. -/
def computed_img_size (board_size : Nat) (terminal_size : Nat × Nat) : Nat :=
  img_size_loop (max_image_size terminal_size) (max_image_size terminal_size)
    board_size

/-- The size checks of `BoardBuilder::build`: fail with "n is too large"
when the board does not fit in `img_size / 2` terminal lines, otherwise
report the computed image size. -/
def build_img_size (board_size : Nat) (terminal_size : Nat × Nat) :
    Except String Nat :=
  let img_size := computed_img_size board_size terminal_size
  let board_lines := img_size / 2
  if board_size > board_lines then Except.error "n is too large"
  else Except.ok img_size

/-- The construction path of `main.rs`: `anyhow::ensure!(opt.n > 1, ...)`
followed by `BoardBuilder::build`. -/
def main_build (board_size : Nat) (terminal_size : Nat × Nat) :
    Except String Nat :=
  if board_size > 1 then build_img_size board_size terminal_size
  else Except.error "n must be 2 or larger"

/-- `width` in `Board::draw_tile`: `img_size / board_size`. -/
def cell_width (board_size : Nat) (terminal_size : Nat × Nat) : Nat :=
  computed_img_size board_size terminal_size / board_size

/-- `height` in `Board::draw_tile`: `width / 2`. -/
def cell_height (board_size : Nat) (terminal_size : Nat × Nat) : Nat :=
  cell_width board_size terminal_size / 2

/-- A terminal color as used by the renderer: `crossterm`'s `Color::Reset`
(transparent pixels) or an opaque RGB triple. -/
inductive Color where
  | reset
  | rgb (r g b : Nat)
deriving DecidableEq, Repr

/-- One styled glyph as emitted by `Board::draw_tile` for a column pair:
a space under reset style, a lower-half block `▄` with the given foreground
over a reset background, or an upper-half block `▀` with the given
foreground and background. -/
inductive Glyph where
  | space
  | lowerHalf (fg : Color)
  | upperHalf (fg : Color) (bg : Color)
deriving DecidableEq, Repr

/-- The `match (upper, lower)` of `Board::draw_tile`, mapping a column's
(upper pixel, lower pixel) pair to the styled glyph printed for it. -/
def render_pair : Color × Color → Glyph
  | (.reset, .reset) => .space
  | (.reset, fg) => .lowerHalf fg
  | (fg, bg) => .upperHalf fg bg

/-- The merging step of `itertools`' `coalesce` as instantiated in
`Board::draw_tile`: merge the accumulated run with the next element when
their keys are equal, adding the lengths; otherwise emit the run. -/
def coalesce_go {α : Type} [DecidableEq α] (acc : α × Nat) :
    List (α × Nat) → List (α × Nat)
  | [] => [acc]
  | x :: rest =>
    if acc.1 = x.1 then coalesce_go (acc.1, acc.2 + x.2) rest
    else acc :: coalesce_go x rest

/-- `itertools::coalesce` with the run-merging closure of `Board::draw_tile`. -/
def coalesce_runs {α : Type} [DecidableEq α] :
    List (α × Nat) → List (α × Nat)
  | [] => []
  | x :: rest => coalesce_go x rest

/-- The `runs` iterator of `Board::draw_tile`: tag every column pair of a
pixel row with length 1, then coalesce adjacent equal pairs. -/
def row_runs (pixels : List (Color × Color)) : List ((Color × Color) × Nat) :=
  coalesce_runs (pixels.map fun p => (p, 1))

/-- Expanding the emitted runs back into the sequence of glyphs that appears
on screen: each run `(pair, len)` prints `len` copies of its glyph. -/
def emit_runs (runs : List ((Color × Color) × Nat)) : List Glyph :=
  runs.flatMap fun r => List.replicate r.2 (render_pair r.1)

/-- Naive per-column emission: one styled glyph per column pair. -/
def emit_naive (pixels : List (Color × Color)) : List Glyph :=
  pixels.map render_pair

/-! ## The image-size computation (`BoardBuilder::build`) -/

lemma img_size_loop_pow (max : Nat) :
    ∀ fuel s : Nat, ∃ k, img_size_loop max fuel s = s * 2 ^ k := by
  intro fuel
  induction fuel with
  | zero => exact fun s => ⟨0, by simp [img_size_loop]⟩
  | succ f ih =>
    intro s
    by_cases h : s * 2 ≤ max
    · obtain ⟨k, hk⟩ := ih (s * 2)
      refine ⟨k + 1, ?_⟩
      simp only [img_size_loop, if_pos h, hk]
      ring
    · exact ⟨0, by simp [img_size_loop, if_neg h]⟩

/-- The fuel used by `computed_img_size` is never what stops the loop: for a
positive start value the result genuinely fails the doubling guard. -/
lemma img_size_loop_guard (max : Nat) :
    ∀ fuel s : Nat, 1 ≤ s → max < s * 2 ^ fuel →
      max < img_size_loop max fuel s * 2 := by
  intro fuel
  induction fuel with
  | zero =>
    intro s hs h
    simp only [pow_zero, Nat.mul_one] at h
    simp only [img_size_loop]
    omega
  | succ f ih =>
    intro s hs h
    by_cases hle : s * 2 ≤ max
    · simp only [img_size_loop, if_pos hle]
      refine ih (s * 2) (by omega) ?_
      calc max < s * 2 ^ (f + 1) := h
        _ = s * 2 * 2 ^ f := by ring
    · simp only [img_size_loop, if_neg hle]
      omega

/-- For `computed_img_size` (fuel = `max`), a positive board size always
reaches the genuine exit of the Rust loop: the doubled result exceeds `max`. -/
lemma computed_img_size_guard (board_size : Nat) (terminal_size : Nat × Nat)
    (h : 1 ≤ board_size) :
    max_image_size terminal_size <
      computed_img_size board_size terminal_size * 2 := by
  refine img_size_loop_guard _ _ _ h ?_
  calc max_image_size terminal_size
      < 2 ^ max_image_size terminal_size := Nat.lt_two_pow _
    _ ≤ board_size * 2 ^ max_image_size terminal_size := by
        exact Nat.le_mul_of_pos_left _ h

/-! ## Run-length coalescing (`Board::draw_tile`) -/

lemma coalesce_go_flatMap {α β : Type} [DecidableEq α] (g : α → β) :
    ∀ (l : List (α × Nat)) (acc : α × Nat),
      (coalesce_go acc l).flatMap (fun r => List.replicate r.2 (g r.1)) =
        List.replicate acc.2 (g acc.1) ++
          l.flatMap (fun r => List.replicate r.2 (g r.1)) := by
  intro l
  induction l with
  | nil => intro acc; simp [coalesce_go]
  | cons x rest ih =>
    rintro ⟨a, al⟩
    obtain ⟨b, bl⟩ := x
    by_cases h : a = b
    · subst h
      have hstep : coalesce_go (a, al) ((a, bl) :: rest) =
          coalesce_go (a, al + bl) rest := by
        simp [coalesce_go]
      rw [hstep, ih (a, al + bl)]
      simp only [List.flatMap_cons]
      rw [List.replicate_add, List.append_assoc]
    · have hstep : coalesce_go (a, al) ((b, bl) :: rest) =
          (a, al) :: coalesce_go (b, bl) rest := by
        simp [coalesce_go, h]
      rw [hstep]
      simp [ih (b, bl)]

lemma flatMap_singleton_runs {α β : Type} (g : α → β) (l : List α) :
    (l.map fun p => (p, 1)).flatMap (fun r => List.replicate r.2 (g r.1)) =
      l.map g := by
  induction l with
  | nil => rfl
  | cons a t ih => simp [ih]

/-! ## Swapping two entries (`Vec::swap` as used by `move_tiles`) -/

lemma set_cons_perm (x : Nat) :
    ∀ (t : List Nat) (m : Nat), m < t.length →
      (t.getD m 0 :: t.set m x).Perm (x :: t) := by
  intro t
  induction t with
  | nil => intro m hm; simp at hm
  | cons b tl ih =>
    intro m hm
    match m with
    | 0 =>
      simpa using List.Perm.swap x b tl
    | k + 1 =>
      have hk : k < tl.length := by simpa using hm
      simp only [List.getD_cons_succ, List.set_cons_succ]
      refine List.Perm.trans (List.Perm.swap b (tl.getD k 0) (tl.set k x)) ?_
      exact List.Perm.trans ((ih k hk).cons b) (List.Perm.swap x b tl)

lemma list_swap_perm :
    ∀ (l : List Nat) (i j : Nat), i < l.length → j < l.length →
      (list_swap l i j).Perm l := by
  intro l
  induction l with
  | nil => intro i j hi _; simp at hi
  | cons a t ih =>
    intro i j hi hj
    match i, j with
    | 0, 0 =>
      simp [list_swap]
    | 0, m + 1 =>
      have hm : m < t.length := by simpa using hj
      have hstep : list_swap (a :: t) 0 (m + 1) = t.getD m 0 :: t.set m a := by
        simp [list_swap]
      rw [hstep]
      exact set_cons_perm a t m hm
    | k + 1, 0 =>
      have hk : k < t.length := by simpa using hi
      have hstep : list_swap (a :: t) (k + 1) 0 = t.getD k 0 :: t.set k a := by
        simp [list_swap]
      rw [hstep]
      exact set_cons_perm a t k hk
    | k + 1, m + 1 =>
      have hstep : list_swap (a :: t) (k + 1) (m + 1) = a :: list_swap t k m := by
        simp [list_swap]
      rw [hstep]
      exact (ih k m (by simpa using hi) (by simpa using hj)).cons a

lemma length_list_swap (l : List Nat) (i j : Nat) :
    (list_swap l i j).length = l.length := by
  simp [list_swap]

lemma getElem?_list_swap (l : List Nat) (i j k : Nat)
    (hi : i < l.length) (hj : j < l.length) :
    (list_swap l i j)[k]? =
      if j = k then some (l.getD i 0)
      else if i = k then some (l.getD j 0)
      else l[k]? := by
  simp only [list_swap, List.getElem?_set, List.length_set, hi, hj, if_true]

lemma getElem?_eq_some_getD {l : List Nat} {k : Nat} (h : k < l.length) :
    l[k]? = some (l.getD k 0) := by
  rw [List.getElem?_eq_getElem h, List.getD_eq_getElem l 0 h]

lemma getD_of_getElem? {l : List Nat} {k v : Nat} (h : l[k]? = some v) :
    l.getD k 0 = v := by
  obtain ⟨hk, hv⟩ := List.getElem?_eq_some_iff.1 h
  rw [List.getD_eq_getElem l 0 hk, hv]

/-! ## Characterizing `move_tiles` -/

lemma move_tiles_eq (n : Nat) (tiles : List Nat) (d : Direction) :
    move_tiles n tiles d =
      if movable n (dest_coords n tiles d) then
        (some (blank_index n tiles,
            (dest_coords n tiles d).1.toNat +
              (dest_coords n tiles d).2.toNat * n),
         list_swap tiles (blank_index n tiles)
           ((dest_coords n tiles d).1.toNat +
             (dest_coords n tiles d).2.toNat * n))
      else (none, tiles) := rfl

lemma movable_iff {n : Nat} {p : Int × Int} :
    movable n p = true ↔
      0 ≤ p.1 ∧ p.1 < (n : Int) ∧ 0 ≤ p.2 ∧ p.2 < (n : Int) := by
  simp [movable, and_assoc]

lemma move_tiles_some {n : Nat} {tiles : List Nat} {d : Direction}
    {a b : Nat} {l' : List Nat}
    (h : move_tiles n tiles d = (some (a, b), l')) :
    movable n (dest_coords n tiles d) = true ∧
    a = blank_index n tiles ∧
    b = (dest_coords n tiles d).1.toNat + (dest_coords n tiles d).2.toNat * n ∧
    l' = list_swap tiles a b := by
  rw [move_tiles_eq] at h
  cases hm : movable n (dest_coords n tiles d) with
  | false => rw [hm] at h; simp at h
  | true =>
    rw [hm] at h
    simp only [if_true, Prod.mk.injEq, Option.some.injEq] at h
    obtain ⟨⟨ha, hb⟩, hl⟩ := h
    exact ⟨rfl, ha.symm, hb.symm, by rw [hl.symm, ha, hb]⟩

lemma blank_mem {n : Nat} {tiles : List Nat} (hn : 1 ≤ n)
    (hp : tiles.Perm (List.range (n * n))) : blank_tile_num n ∈ tiles := by
  rw [hp.mem_iff, List.mem_range, blank_tile_num]
  have h1 : 1 * 1 ≤ n * n := Nat.mul_le_mul hn hn
  omega

lemma blank_index_lt {n : Nat} {tiles : List Nat}
    (h : blank_tile_num n ∈ tiles) :
    blank_index n tiles < tiles.length :=
  List.indexOf_lt_length.2 h

lemma blank_index_getElem? {n : Nat} {tiles : List Nat}
    (h : blank_tile_num n ∈ tiles) :
    tiles[blank_index n tiles]? = some (blank_tile_num n) := by
  rw [List.getElem?_eq_getElem (blank_index_lt h)]
  exact congrArg some (List.getElem_indexOf (blank_index_lt h))

lemma blank_index_eq {n : Nat} {tiles : List Nat} (hd : tiles.Nodup) {j : Nat}
    (hj : tiles[j]? = some (blank_tile_num n)) :
    blank_index n tiles = j := by
  obtain ⟨hjl, hval⟩ := List.getElem?_eq_some_iff.1 hj
  have hidx := List.indexOf_getElem hd j hjl
  rw [hval] at hidx
  exact hidx

lemma index_coords {n i : Nat} (h : i < n * n) : i % n < n ∧ i / n < n := by
  have hn : 0 < n := by
    rcases Nat.eq_zero_or_pos n with h0 | h0
    · subst h0; simp at h
    · exact h0
  exact ⟨Nat.mod_lt _ hn, (Nat.div_lt_iff_lt_mul hn).2 h⟩

lemma dest_tile_facts {n : Nat} {x y : Int} (hx0 : 0 ≤ x) (hxn : x < (n : Int))
    (hy0 : 0 ≤ y) (hyn : y < (n : Int)) :
    (x.toNat + y.toNat * n) % n = x.toNat ∧
    (x.toNat + y.toNat * n) / n = y.toNat ∧
    x.toNat + y.toNat * n < n * n := by
  have hn : 0 < n := by omega
  have hx : x.toNat < n := by omega
  have hy : y.toNat < n := by omega
  refine ⟨?_, ?_, ?_⟩
  · rw [Nat.add_mul_mod_self_right, Nat.mod_eq_of_lt hx]
  · rw [Nat.add_mul_div_right _ _ hn, Nat.div_eq_of_lt hx, Nat.zero_add]
  · calc x.toNat + y.toNat * n < n + y.toNat * n := by omega
      _ = (y.toNat + 1) * n := by ring
      _ ≤ n * n := Nat.mul_le_mul_right n hy

lemma offset_ne_zero (d : Direction) :
    (offset d).1 ≠ 0 ∨ (offset d).2 ≠ 0 := by
  cases d <;> simp [offset]

/-- Everything the three move claims need about a successful
`move_tiles` call on a valid board state. -/
lemma move_tiles_success_spec {n : Nat} {tiles : List Nat} {d : Direction}
    {a b : Nat} {l' : List Nat}
    (hp : tiles.Perm (List.range (n * n)))
    (h : move_tiles n tiles d = (some (a, b), l')) :
    tiles.length = n * n ∧ a < n * n ∧ b < n * n ∧ a ≠ b ∧
    tiles[a]? = some (blank_tile_num n) ∧
    ((b % n : Nat) : Int) = ((a % n : Nat) : Int) + (offset d).1 ∧
    ((b / n : Nat) : Int) = ((a / n : Nat) : Int) + (offset d).2 ∧
    l' = list_swap tiles a b := by
  obtain ⟨hm, ha, hb, hl⟩ := move_tiles_some h
  obtain ⟨hx0, hxn, hy0, hyn⟩ := movable_iff.1 hm
  have hn : 1 ≤ n := by omega
  have hlen : tiles.length = n * n := by rw [hp.length_eq, List.length_range]
  have hmem : blank_tile_num n ∈ tiles := blank_mem hn hp
  have haval : tiles[a]? = some (blank_tile_num n) := by
    rw [ha]; exact blank_index_getElem? hmem
  have halt : a < n * n := by
    rw [← hlen, ha]; exact blank_index_lt hmem
  obtain ⟨hbmod, hbdiv, hblt⟩ := dest_tile_facts hx0 hxn hy0 hyn
  rw [← hb] at hbmod hbdiv hblt
  have hdx : (dest_coords n tiles d).1 = ((a % n : Nat) : Int) + (offset d).1 := by
    rw [ha]; rfl
  have hdy : (dest_coords n tiles d).2 = ((a / n : Nat) : Int) + (offset d).2 := by
    rw [ha]; rfl
  have hbm : ((b % n : Nat) : Int) = ((a % n : Nat) : Int) + (offset d).1 := by
    rw [hbmod]; omega
  have hbd : ((b / n : Nat) : Int) = ((a / n : Nat) : Int) + (offset d).2 := by
    rw [hbdiv]; omega
  have hab : a ≠ b := by
    intro hab
    rcases offset_ne_zero d with h0 | h0
    · rw [hab] at hbm; omega
    · rw [hab] at hbd; omega
  exact ⟨hlen, halt, hblt, hab, haval, hbm, hbd, hl⟩

lemma offset_opposite (d : Direction) :
    offset (opposite d) = (-(offset d).1, -(offset d).2) := by
  cases d <;> simp [offset, opposite]

/-- Undoing a successful move: from the state after the swap, the opposite
direction is again movable, swaps the same two cells back, and restores the
original tile list. -/
lemma move_tiles_undo {n : Nat} {tiles : List Nat} {d : Direction}
    {a b : Nat} {l' : List Nat}
    (hp : tiles.Perm (List.range (n * n)))
    (h : move_tiles n tiles d = (some (a, b), l')) :
    move_tiles n l' (opposite d) = (some (b, a), tiles) := by
  obtain ⟨hlen, halt, hblt, hab, haval, hbm, hbd, hl⟩ :=
    move_tiles_success_spec hp h
  have hn : 0 < n := by
    rcases Nat.eq_zero_or_pos n with h0 | h0
    · subst h0; simp at halt
    · exact h0
  have haL : a < tiles.length := by omega
  have hbL : b < tiles.length := by omega
  have hl'b : l'[b]? = some (blank_tile_num n) := by
    rw [hl, getElem?_list_swap tiles a b b haL hbL, if_pos rfl,
      getD_of_getElem? haval]
  have hl'a : l'[a]? = tiles[b]? := by
    rw [hl, getElem?_list_swap tiles a b a haL hbL,
      if_neg (fun hh => hab hh.symm), if_pos rfl]
    exact (getElem?_eq_some_getD hbL).symm
  have hl'k : ∀ k, k ≠ a → k ≠ b → l'[k]? = tiles[k]? := by
    intro k hka hkb
    rw [hl, getElem?_list_swap tiles a b k haL hbL,
      if_neg (fun hh => hkb hh.symm), if_neg (fun hh => hka hh.symm)]
  have hnd : tiles.Nodup := hp.nodup_iff.2 (List.nodup_range _)
  have hpl' : l'.Perm tiles := by
    rw [hl]; exact list_swap_perm tiles a b haL hbL
  have hndl' : l'.Nodup := hpl'.nodup_iff.2 hnd
  have hbi : blank_index n l' = b := blank_index_eq hndl' hl'b
  have hoff := offset_opposite d
  have hmoda : a % n < n := (index_coords halt).1
  have hdiva : a / n < n := (index_coords halt).2
  have hdc : dest_coords n l' (opposite d) =
      (((a % n : Nat) : Int), ((a / n : Nat) : Int)) := by
    have hx : (dest_coords n l' (opposite d)).1 = ((a % n : Nat) : Int) := by
      show ((blank_index n l' % n : Nat) : Int) + (offset (opposite d)).1 = _
      rw [hbi, hoff]
      show ((b % n : Nat) : Int) + (-(offset d).1) = _
      omega
    have hy : (dest_coords n l' (opposite d)).2 = ((a / n : Nat) : Int) := by
      show ((blank_index n l' / n : Nat) : Int) + (offset (opposite d)).2 = _
      rw [hbi, hoff]
      show ((b / n : Nat) : Int) + (-(offset d).2) = _
      omega
    exact Prod.ext hx hy
  have hmv : movable n (dest_coords n l' (opposite d)) = true := by
    rw [hdc, movable_iff]
    refine ⟨?_, ?_, ?_, ?_⟩
    · show (0 : Int) ≤ ((a % n : Nat) : Int)
      exact_mod_cast Nat.zero_le _
    · show ((a % n : Nat) : Int) < (n : Int)
      exact_mod_cast hmoda
    · show (0 : Int) ≤ ((a / n : Nat) : Int)
      exact_mod_cast Nat.zero_le _
    · show ((a / n : Nat) : Int) < (n : Int)
      exact_mod_cast hdiva
  have hl'len : l'.length = tiles.length := hpl'.length_eq
  have hback : list_swap l' b a = tiles := by
    have hbL' : b < l'.length := by omega
    have haL' : a < l'.length := by omega
    apply List.ext_getElem?
    intro k
    rw [getElem?_list_swap l' b a k hbL' haL']
    by_cases hka : a = k
    · rw [if_pos hka, getD_of_getElem? hl'b, ← hka, haval]
    · rw [if_neg hka]
      by_cases hkb : b = k
      · rw [if_pos hkb,
          getD_of_getElem? (hl'a.trans (getElem?_eq_some_getD hbL)), ← hkb]
        exact (getElem?_eq_some_getD hbL).symm
      · rw [if_neg hkb]
        exact hl'k k (fun hh => hka hh.symm) (fun hh => hkb hh.symm)
  have hdt : (((a % n : Nat) : Int), ((a / n : Nat) : Int)).1.toNat +
      (((a % n : Nat) : Int), ((a / n : Nat) : Int)).2.toNat * n = a := by
    show ((a % n : Nat) : Int).toNat + ((a / n : Nat) : Int).toNat * n = a
    rw [Int.toNat_natCast, Int.toNat_natCast, Nat.mod_add_div']
  rw [move_tiles_eq, if_pos hmv, hbi, hdc, hdt, hback]

/-! ## The inversion count: from the code's fold to the spec's pair count -/

lemma foldl_add_eq {β : Type} (f : β → Nat) :
    ∀ (l : List β) (s : Nat),
      l.foldl (fun acc x => acc + f x) s = s + (l.map f).sum := by
  intro l
  induction l with
  | nil => simp
  | cons a t ih =>
    intro s
    simp only [List.foldl_cons, List.map_cons, List.sum_cons, ih (s + f a)]
    omega

lemma sum_enumFrom_inv (blank : Nat) (tiles : List Nat) :
    ∀ (l : List Nat) (k : Nat), tiles.drop k = l →
      (((l.enumFrom k).filter fun p => p.2 != blank).map
        (fun p => ((tiles.drop (p.1 + 1)).filter
          fun b => b != blank && decide (b < p.2)).length)).sum
      = inv_aux blank l := by
  intro l
  induction l with
  | nil => intro k _; simp [inv_aux]
  | cons a rest ih =>
    intro k hk
    have hdrop : tiles.drop (k + 1) = rest := by
      have hdd := List.drop_drop 1 k tiles
      rw [← hdd, hk]
      rfl
    rw [List.enumFrom_cons, List.filter_cons]
    by_cases hab : (a != blank) = true
    · rw [if_pos hab]
      simp only [List.map_cons, List.sum_cons]
      rw [hdrop, ih (k + 1) hdrop, inv_aux, if_pos hab]
    · rw [if_neg hab]
      rw [ih (k + 1) hdrop, inv_aux, if_neg hab]
      omega

/-- The inversion fold of `is_solvable` equals the structural count. -/
lemma inversions_fold_eq (blank : Nat) (tiles : List Nat) :
    ((tiles.enum.filter fun p => p.2 != blank).foldl
      (fun sum p =>
        sum + ((tiles.drop (p.1 + 1)).filter
          fun b => b != blank && decide (b < p.2)).length)
      0)
    = inv_aux blank tiles := by
  rw [foldl_add_eq, Nat.zero_add]
  exact sum_enumFrom_inv blank tiles tiles 0 (List.drop_zero tiles)

lemma length_filter_eq_sum (q : Nat → Bool) :
    ∀ l : List Nat, (l.filter q).length =
      ∑ j ∈ Finset.range l.length, if q (l.getD j 0) = true then 1 else 0 := by
  intro l
  induction l with
  | nil => simp
  | cons a t ih =>
    rw [List.filter_cons, List.length_cons, Finset.sum_range_succ']
    simp only [List.getD_cons_succ, List.getD_cons_zero]
    by_cases hq : q a = true
    · rw [if_pos hq, if_pos hq, List.length_cons, ih]
    · rw [if_neg hq, if_neg hq, ih, Nat.add_zero]

lemma inv_aux_eq_sum (blank : Nat) :
    ∀ l : List Nat, inv_aux blank l =
      ∑ i ∈ Finset.range l.length, ∑ j ∈ Finset.range l.length,
        if i < j ∧ l.getD i 0 ≠ blank ∧ l.getD j 0 ≠ blank ∧
            l.getD j 0 < l.getD i 0
        then 1 else 0 := by
  intro l
  induction l with
  | nil => simp [inv_aux]
  | cons a t ih =>
    rw [inv_aux, List.length_cons, Finset.sum_range_succ']
    have houter : ∀ i : Nat,
        (∑ j ∈ Finset.range (t.length + 1),
          if i + 1 < j ∧ (a :: t).getD (i + 1) 0 ≠ blank ∧
              (a :: t).getD j 0 ≠ blank ∧
              (a :: t).getD j 0 < (a :: t).getD (i + 1) 0
          then 1 else 0)
        = ∑ j ∈ Finset.range t.length,
            if i < j ∧ t.getD i 0 ≠ blank ∧ t.getD j 0 ≠ blank ∧
                t.getD j 0 < t.getD i 0
            then 1 else 0 := by
      intro i
      rw [Finset.sum_range_succ']
      simp only [List.getD_cons_succ, List.getD_cons_zero,
        Nat.add_lt_add_iff_right, Nat.not_lt_zero, false_and, if_false,
        Nat.add_zero]
    have hinner0 :
        (∑ j ∈ Finset.range (t.length + 1),
          if 0 < j ∧ (a :: t).getD 0 0 ≠ blank ∧ (a :: t).getD j 0 ≠ blank ∧
              (a :: t).getD j 0 < (a :: t).getD 0 0
          then 1 else 0)
        = (if a != blank
            then ((t.filter fun b => b != blank && decide (b < a)).length)
            else 0) := by
      rw [Finset.sum_range_succ']
      simp only [List.getD_cons_succ, List.getD_cons_zero, Nat.succ_pos,
        true_and, Nat.lt_irrefl, false_and, if_false, Nat.add_zero]
      by_cases hab : (a != blank) = true
      · rw [if_pos hab]
        have hane : a ≠ blank := by simpa using hab
        rw [length_filter_eq_sum]
        refine Finset.sum_congr rfl fun j _ => ?_
        simp [hane, Bool.and_eq_true, bne_iff_ne, decide_eq_true_eq,
          and_assoc]
      · rw [if_neg hab]
        have hae : a = blank := by simpa using hab
        simp [hae]
    calc (if a != blank
            then ((t.filter fun b => b != blank && decide (b < a)).length)
            else 0) + inv_aux blank t
        = inv_aux blank t + (if a != blank
            then ((t.filter fun b => b != blank && decide (b < a)).length)
            else 0) := by omega
      _ = _ := by rw [ih, ← hinner0]; congr 1; exact (Finset.sum_congr rfl
            fun i _ => (houter i).symm)

lemma spec_count_eq_sum (blank : Nat) (l : List Nat) :
    spec_inversion_count blank l =
      ∑ i ∈ Finset.range l.length, ∑ j ∈ Finset.range l.length,
        if i < j ∧ l.getD i 0 ≠ blank ∧ l.getD j 0 ≠ blank ∧
            l.getD j 0 < l.getD i 0
        then 1 else 0 := by
  rw [spec_inversion_count, Finset.card_filter, Finset.sum_product]

/-- The code's inversion fold computes exactly the specification's ordered
pair count. -/
lemma inversions_eq_spec_count (n : Nat) (tiles : List Nat) :
    ((tiles.enum.filter fun p => p.2 != blank_tile_num n).foldl
      (fun sum p =>
        sum + ((tiles.drop (p.1 + 1)).filter
          fun b => b != blank_tile_num n && decide (b < p.2)).length)
      0)
    = spec_inversion_count (blank_tile_num n) tiles := by
  rw [inversions_fold_eq, inv_aux_eq_sum, spec_count_eq_sum]

/-! ## The claims -/

/-- C1: `is_solvable` computes exactly the specified predicate: the
inversion count is the number of ordered position pairs `(i, j)` with
`i < j` where neither entry is the blank marker and `tiles[j] < tiles[i]`;
for odd `boardSize` the permutation is solvable iff that count is even, and
for even `boardSize` iff `(blankRowFromBottom is even) XOR (inversion count
is even)` with `blankRowFromBottom = boardSize - blankPosition / boardSize`. -/
theorem is_solvable_eq_spec (n : Nat) (tiles : List Nat) :
    is_solvable n tiles = spec_is_solvable n tiles := by
  simp only [is_solvable, spec_is_solvable]
  rw [inversions_eq_spec_count]
  rcases Nat.mod_two_eq_zero_or_one n with h2 | h2 <;> simp [h2]

/-- C2: every output of the shuffle-until-solvable generator satisfies the
solvability predicate, for any board size and any stream of shuffle
outcomes, so the `assert!(is_solvable(...))` that `BoardBuilder::build`
runs on the generated tiles never fails. -/
theorem generate_tiles_solvable (n : Nat) (shuffles : List (List Nat))
    (t : List Nat) (h : generate_tiles n shuffles = some t) :
    is_solvable n t = true :=
  List.find?_some h

theorem generate_tiles_solvable_witness : is_solvable 2 [0, 1, 2, 3] = true :=
  generate_tiles_solvable 2 [[0, 1, 2, 3]] [0, 1, 2, 3] (by decide)

/-- C3: for every board state whose tiles are a permutation of
`[0, boardSize²)` (hence with exactly one blank marker) and every direction,
after `move_tiles` the tiles are still a permutation of `[0, boardSize²)`
and exactly one position holds the blank marker. -/
theorem move_tiles_perm_invariant (n : Nat) (tiles : List Nat) (d : Direction)
    (hn : 1 ≤ n) (hp : tiles.Perm (List.range (n * n))) :
    (move_tiles n tiles d).2.Perm (List.range (n * n)) ∧
    (move_tiles n tiles d).2.count (blank_tile_num n) = 1 := by
  have hmem : blank_tile_num n ∈ List.range (n * n) := by
    rw [List.mem_range, blank_tile_num]
    have h1 : 1 * 1 ≤ n * n := Nat.mul_le_mul hn hn
    omega
  have hcount : (List.range (n * n)).count (blank_tile_num n) = 1 :=
    List.count_eq_one_of_mem (List.nodup_range _) hmem
  cases hm : movable n (dest_coords n tiles d) with
  | false =>
    have h2 : (move_tiles n tiles d).2 = tiles := by
      rw [move_tiles_eq, hm]
      simp
    rw [h2]
    exact ⟨hp, by rw [hp.count_eq]; exact hcount⟩
  | true =>
    have hlen : tiles.length = n * n := by
      rw [hp.length_eq, List.length_range]
    have ha : blank_index n tiles < tiles.length :=
      blank_index_lt (blank_mem hn hp)
    obtain ⟨hx0, hxn, hy0, hyn⟩ := movable_iff.1 hm
    have hb : (dest_coords n tiles d).1.toNat +
        (dest_coords n tiles d).2.toNat * n < tiles.length := by
      rw [hlen]
      exact (dest_tile_facts hx0 hxn hy0 hyn).2.2
    have h2 : (move_tiles n tiles d).2 =
        list_swap tiles (blank_index n tiles)
          ((dest_coords n tiles d).1.toNat +
            (dest_coords n tiles d).2.toNat * n) := by
      rw [move_tiles_eq, hm]
      simp
    rw [h2]
    have hperm := (list_swap_perm tiles _ _ ha hb).trans hp
    exact ⟨hperm, by rw [hperm.count_eq]; exact hcount⟩

theorem move_tiles_perm_invariant_witness :
    (move_tiles 2 [0, 1, 2, 3] .up).2.Perm (List.range (2 * 2)) ∧
    (move_tiles 2 [0, 1, 2, 3] .up).2.count (blank_tile_num 2) = 1 :=
  move_tiles_perm_invariant 2 [0, 1, 2, 3] .up (by decide)
    (by rw [show List.range (2 * 2) = [0, 1, 2, 3] from rfl])

/-- C4: for every board state and every direction whose computed destination
(the blank's coordinates shifted by the direction's offset) fails the bounds
check on either axis, `move_tiles` returns `none` and leaves the tiles
completely unchanged — a silent no-op, not an error. -/
theorem move_tiles_out_of_bounds_noop (n : Nat) (tiles : List Nat)
    (d : Direction) (h : movable n (dest_coords n tiles d) = false) :
    move_tiles n tiles d = (none, tiles) := by
  rw [move_tiles_eq, h]
  simp

theorem move_tiles_out_of_bounds_noop_witness :
    movable 2 (dest_coords 2 [0, 1, 2, 3] .up) = false ∧
    move_tiles 2 [0, 1, 2, 3] .up = (none, [0, 1, 2, 3]) :=
  ⟨by decide, move_tiles_out_of_bounds_noop 2 [0, 1, 2, 3] .up (by decide)⟩

/-- C5: `move_tiles` is its own inverse: if applying a direction to a valid
board state succeeds and applying the opposite direction to the result also
succeeds, the final tile permutation equals the one before the first move. -/
theorem move_tiles_inverse (n : Nat) (tiles : List Nat) (d : Direction)
    (a b c e : Nat) (l₁ l₂ : List Nat)
    (hp : tiles.Perm (List.range (n * n)))
    (h1 : move_tiles n tiles d = (some (a, b), l₁))
    (h2 : move_tiles n l₁ (opposite d) = (some (c, e), l₂)) :
    l₂ = tiles := by
  rw [move_tiles_undo hp h1] at h2
  injection h2 with h2a h2b
  exact h2b.symm

theorem move_tiles_inverse_witness : ([0, 1, 2, 3] : List Nat) = [0, 1, 2, 3] :=
  move_tiles_inverse 2 [0, 1, 2, 3] .down 3 1 1 3 [0, 3, 2, 1] [0, 1, 2, 3]
    (by rw [show List.range (2 * 2) = [0, 1, 2, 3] from rfl])
    (by decide) (by decide)

/-- C6: the direction-to-offset mapping used by `move_tiles` is exactly
Up=(0,+1), Down=(0,-1), Left=(+1,0), Right=(-1,0) in (column,row) terms;
in particular pressing Up computes a destination one row below the blank
(the blank moves down by one row). -/
theorem direction_offsets :
    offset .up = (0, 1) ∧ offset .down = (0, -1) ∧
    offset .left = (1, 0) ∧ offset .right = (-1, 0) ∧
    ∀ n tiles, dest_coords n tiles .up =
      (((blank_index n tiles % n : Nat) : Int),
       ((blank_index n tiles / n : Nat) : Int) + 1) := by
  refine ⟨rfl, rfl, rfl, rfl, fun n tiles => Prod.ext ?_ rfl⟩
  show ((blank_index n tiles % n : Nat) : Int) + 0 =
    ((blank_index n tiles % n : Nat) : Int)
  exact add_zero _

/-- C7: `build` computes the image size by repeatedly doubling from the
board size while the doubled value fits in
`min((termHeight-1)*2, termWidth)`, so the image size is always the board
size times a power of two (hence an exact multiple of the board size); for
`boardSize = 2` and terminal size `(80, 24)` it is `32`, giving
`cellWidth = 16` and `cellHeight = 8`. -/
theorem img_size_power_of_two :
    (∀ board_size terminal_size,
      ∃ k, computed_img_size board_size terminal_size = board_size * 2 ^ k) ∧
    (∀ board_size terminal_size,
      board_size ∣ computed_img_size board_size terminal_size) ∧
    computed_img_size 2 (80, 24) = 32 ∧
    cell_width 2 (80, 24) = 16 ∧ cell_height 2 (80, 24) = 8 := by
  refine ⟨fun bs ts => img_size_loop_pow _ _ _, fun bs ts => ?_,
    by decide, by decide, by decide⟩
  obtain ⟨k, hk⟩ := img_size_loop_pow (max_image_size ts) (max_image_size ts) bs
  exact ⟨2 ^ k, hk⟩

/-- C8: constructing the puzzle fails for board sizes below 2: the
`ensure!(opt.n > 1)` guard on the construction path of `main` rejects
board sizes 0 and 1 with an error, for every terminal size. -/
theorem main_rejects_small_board :
    ∀ terminal_size,
      main_build 0 terminal_size = Except.error "n must be 2 or larger" ∧
      main_build 1 terminal_size = Except.error "n must be 2 or larger" :=
  fun _ => ⟨rfl, rfl⟩

/-- C9: run-length coalescing is a pure optimization: for every pixel row,
expanding the coalesced runs (adjacent columns with the identical
(upper, lower) color pair merged, lengths added) yields exactly the same
sequence of styled half-block glyphs as emitting one glyph per column, and
each run carries the glyph and colors of its merged columns. -/
theorem coalesce_emission_faithful (pixels : List (Color × Color)) :
    emit_runs (row_runs pixels) = emit_naive pixels := by
  cases pixels with
  | nil => rfl
  | cons p rest =>
    show (coalesce_go (p, 1) (rest.map fun q => (q, 1))).flatMap
        (fun r => List.replicate r.2 (render_pair r.1)) = _
    rw [coalesce_go_flatMap, flatMap_singleton_runs]
    rfl

/-- C10: whenever `move_tiles` returns `some (a, b)` on a valid board state,
`a` is the position that held the blank marker before the call, `b` is the
destination one orthogonal step (the direction's offset) from `a`, and
afterwards the blank marker is at `b` while the tile previously at `b` is at
`a`; every other entry of the permutation is unchanged. -/
theorem move_tiles_frame (n : Nat) (tiles : List Nat) (d : Direction)
    (a b : Nat) (l' : List Nat)
    (hp : tiles.Perm (List.range (n * n)))
    (h : move_tiles n tiles d = (some (a, b), l')) :
    tiles[a]? = some (blank_tile_num n) ∧
    ((b % n : Nat) : Int) = ((a % n : Nat) : Int) + (offset d).1 ∧
    ((b / n : Nat) : Int) = ((a / n : Nat) : Int) + (offset d).2 ∧
    l'[b]? = some (blank_tile_num n) ∧
    l'[a]? = tiles[b]? ∧
    ∀ k, k ≠ a → k ≠ b → l'[k]? = tiles[k]? := by
  obtain ⟨hlen, halt, hblt, hab, haval, hbm, hbd, hl⟩ :=
    move_tiles_success_spec hp h
  have haL : a < tiles.length := by omega
  have hbL : b < tiles.length := by omega
  refine ⟨haval, hbm, hbd, ?_, ?_, ?_⟩
  · rw [hl, getElem?_list_swap tiles a b b haL hbL, if_pos rfl,
      getD_of_getElem? haval]
  · rw [hl, getElem?_list_swap tiles a b a haL hbL,
      if_neg (fun hh => hab hh.symm), if_pos rfl]
    exact (getElem?_eq_some_getD hbL).symm
  · intro k hka hkb
    rw [hl, getElem?_list_swap tiles a b k haL hbL,
      if_neg (fun hh => hkb hh.symm), if_neg (fun hh => hka hh.symm)]

theorem move_tiles_frame_witness :
    ([0, 1, 2, 3] : List Nat)[3]? = some (blank_tile_num 2) ∧
    ((1 % 2 : Nat) : Int) = ((3 % 2 : Nat) : Int) + (offset .down).1 ∧
    ((1 / 2 : Nat) : Int) = ((3 / 2 : Nat) : Int) + (offset .down).2 ∧
    ([0, 3, 2, 1] : List Nat)[1]? = some (blank_tile_num 2) ∧
    ([0, 3, 2, 1] : List Nat)[3]? = ([0, 1, 2, 3] : List Nat)[1]? ∧
    ∀ k, k ≠ 3 → k ≠ 1 →
      ([0, 3, 2, 1] : List Nat)[k]? = ([0, 1, 2, 3] : List Nat)[k]? :=
  move_tiles_frame 2 [0, 1, 2, 3] .down 3 1 [0, 3, 2, 1]
    (by rw [show List.range (2 * 2) = [0, 1, 2, 3] from rfl])
    (by decide)

end Fifteen
